import Mathlib

/-!
# Verification of the `api_crawler` repository

Shallow embedding of the core of the `api_crawler` Rust crate
(`src/types.rs`, `src/crawler.rs`, `src/output.rs`) and proofs about it.

Modelling conventions:
* `serde_json::Value` is modelled by the inductive `Json`; JSON objects are
  association lists (`serde_json::Map` key lookup is modelled by first match).
* `HashMap`/`HashSet` state is modelled by association lists / membership
  lists.  Where the Rust code iterates over `HashMap::values()` (whose order
  is not determined by the map contents), the iteration order is an explicit
  parameter of the model.
* Recursive Rust functions are modelled with an explicit fuel parameter
  (structural recursion on the fuel); a run of the Rust recursion is
  reproduced by any sufficiently large fuel, and in one case
  (`buildTreeNode`) fuel sufficiency is itself proved.
-/

namespace ApiCrawler

/-- Model of `serde_json::Value`. -/
inductive Json where
  | null : Json
  | bool (b : Bool) : Json
  | num (n : Int) : Json
  | str (s : String) : Json
  | arr (elems : List Json) : Json
  | obj (fields : List (String × Json)) : Json
deriving Repr

/-- `serde_json::Map::get`: value of the first field with the given key. -/
def jGet (fields : List (String × Json)) (k : String) : Option Json :=
  match fields with
  | [] => none
  | (k', v) :: rest => if k' = k then some v else jGet rest k

/-- `Value::as_str`: `some s` exactly on JSON strings. -/
def Json.asStr : Json → Option String
  | .str s => some s
  | _ => none

/-- `types.rs`: `QueueItem` — a frontier item. -/
structure QueueItem where
  url : String
  depth : Nat
  parent_url : Option String
deriving Repr, DecidableEq

/-- `types.rs`: `ApiEndpoint`.  `metadata` is a `HashMap<String, Value>`,
modelled as an association list with at most one entry per key. -/
structure ApiEndpoint where
  href : String
  rel : Option String := none
  method : Option String := none
  type : Option String := none
  title : Option String := none
  depth : Nat
  parent_url : Option String := none
  metadata : List (String × Json) := []
deriving Repr

/-- `HashMap::insert` on the metadata map: replace the entry if the key is
present, otherwise append it. -/
def metaInsert (m : List (String × Json)) (k : String) (v : Json) :
    List (String × Json) :=
  match m with
  | [] => [(k, v)]
  | (k', v') :: rest =>
      if k' = k then (k, v) :: rest else (k', v') :: metaInsert rest k v

/-- `ApiEndpoint::with_metadata`. -/
def ApiEndpoint.with_metadata (e : ApiEndpoint) (k : String) (v : Json) :
    ApiEndpoint :=
  { e with metadata := metaInsert e.metadata k v }

/-- `ApiEndpoint::should_crawl`: crawl unless the relation is `"self"`. -/
def ApiEndpoint.should_crawl (e : ApiEndpoint) : Bool :=
  decide (e.rel ≠ some "self")

/-- The keys that `extract_from_object` / `extract_from_link_data` promote to
dedicated `ApiEndpoint` fields and exclude from `metadata`. -/
def knownKeys : List String := ["href", "rel", "method", "type", "title"]

/-- The metadata loop shared by the two link-object extraction sites:
`for (key, value) in obj { if !matches!(key, known...) { with_metadata } }`. -/
def addMetadataFields (e : ApiEndpoint) (fields : List (String × Json)) :
    ApiEndpoint :=
  fields.foldl
    (fun acc kv => if kv.1 ∈ knownKeys then acc else acc.with_metadata kv.1 kv.2)
    e

/-- `crawler.rs`, direct-`href` rule of `extract_from_object` (lines 278-307):
build one endpoint from an object that has a string `href` member. -/
def mkDirectEndpoint (obj : List (String × Json)) (href : String)
    (parent : QueueItem) : ApiEndpoint :=
  let base : ApiEndpoint :=
    { href := href
      rel := (jGet obj "rel").bind Json.asStr
      method := match jGet obj "method" with
        | some (Json.str m) => some m
        | _ => none
      type := match jGet obj "type" with
        | some (Json.str t) => some t
        | _ => none
      title := match jGet obj "title" with
        | some (Json.str t) => some t
        | _ => none
      depth := parent.depth + 1
      parent_url := some parent.url
      metadata := [] }
  addMetadataFields base obj

/-- `crawler.rs`, object case of `extract_from_link_data` (lines 359-384). -/
def mkLinkObjEndpoint (rel : String) (linkObj : List (String × Json))
    (href : String) (parent : QueueItem) : ApiEndpoint :=
  let base : ApiEndpoint :=
    { href := href
      rel := some rel
      method := match jGet linkObj "method" with
        | some (Json.str m) => some m
        | _ => none
      type := match jGet linkObj "type" with
        | some (Json.str t) => some t
        | _ => none
      title := match jGet linkObj "title" with
        | some (Json.str t) => some t
        | _ => none
      depth := parent.depth + 1
      parent_url := some parent.url
      metadata := [] }
  addMetadataFields base linkObj

/-- `crawler.rs`, string case of `extract_from_link_data` (lines 353-358). -/
def mkLinkStrEndpoint (rel : String) (href : String) (parent : QueueItem) :
    ApiEndpoint :=
  { href := href
    rel := some rel
    depth := parent.depth + 1
    parent_url := some parent.url }

/-- Rust `str::starts_with`, as a character-list prefix test. -/
def strStartsWith (s pat : String) : Bool :=
  decide (pat.toList <+: s.toList)

/-- Rust `str::ends_with`, as a character-list suffix test. -/
def strEndsWith (s pat : String) : Bool :=
  decide (pat.toList <:+ s.toList)

/-- Rust `str::contains` (substring containment). -/
def strContains (s pat : String) : Bool :=
  decide (pat.toList <:+: s.toList)

/-- `ApiCrawler::looks_like_url`. -/
def looks_like_url (s : String) : Bool :=
  strStartsWith s "http://" || strStartsWith s "https://" || strStartsWith s "/"

/-- URL-shaped-heuristic rule of `extract_from_object` (lines 310-322), for
one `(key, value)` member. -/
def urlHeuristic (k : String) (v : Json) (parent : QueueItem) :
    Option ApiEndpoint :=
  if strContains k "url" || strContains k "uri" || strEndsWith k "_link" then
    match v.asStr with
    | some urlStr =>
        if looks_like_url urlStr then
          some (({ href := urlStr
                   depth := parent.depth + 1
                   parent_url := some parent.url } : ApiEndpoint).with_metadata
                 "source_field" (Json.str k))
        else none
    | none => none
  else none

mutual

/-- `ApiCrawler::extract_from_object`, operating on the object's field list.
The fuel bounds the recursion depth; every run of the Rust recursion is
reproduced by a sufficiently large fuel (extraction recursion is bounded by
the size of the JSON document). -/
def extractFromObject : Nat → List (String × Json) → QueueItem →
    List ApiEndpoint
  | 0, _, _ => []
  | fuel + 1, obj, parent =>
    let halPart :=
      match jGet obj "_links" with
      | some (Json.obj links) => extractLinksList fuel links parent
      | _ => []
    let jsonApiPart :=
      match jGet obj "links" with
      | some (Json.obj links) => extractLinksList fuel links parent
      | some (Json.arr linksArr) => extractLinksArray fuel linksArr parent
      | _ => []
    let hrefPart :=
      match jGet obj "href" with
      | some (Json.str href) => [mkDirectEndpoint obj href parent]
      | _ => []
    let urlPart := obj.filterMap (fun kv => urlHeuristic kv.1 kv.2 parent)
    let nestedPart := extractNested fuel obj parent
    halPart ++ jsonApiPart ++ hrefPart ++ urlPart ++ nestedPart
termination_by structural fuel => fuel

/-- The `for (rel, link_data) in links` loops over `_links` / object-valued
`links`. -/
def extractLinksList : Nat → List (String × Json) → QueueItem →
    List ApiEndpoint
  | 0, _, _ => []
  | _ + 1, [], _ => []
  | fuel + 1, (rel, ld) :: rest, parent =>
      extractFromLinkData fuel rel ld parent ++
        extractLinksList fuel rest parent
termination_by structural fuel => fuel

/-- The array-valued `links` loop (JSON:API style): each object element's own
`rel` member (default `"unknown"`) is the relation, and the whole element is
passed as the link data. -/
def extractLinksArray : Nat → List Json → QueueItem → List ApiEndpoint
  | 0, _, _ => []
  | _ + 1, [], _ => []
  | fuel + 1, li :: rest, parent =>
      (match li with
       | Json.obj linkObj =>
          let rel := match (jGet linkObj "rel").bind Json.asStr with
            | some s => s
            | none => "unknown"
          extractFromLinkData fuel rel li parent
       | _ => []) ++ extractLinksArray fuel rest parent
termination_by structural fuel => fuel

/-- `ApiCrawler::extract_from_link_data`. -/
def extractFromLinkData : Nat → String → Json → QueueItem → List ApiEndpoint
  | 0, _, _, _ => []
  | _ + 1, rel, Json.str href, parent => [mkLinkStrEndpoint rel href parent]
  | _ + 1, rel, Json.obj linkObj, parent =>
      (match jGet linkObj "href" with
       | some (Json.str href) => [mkLinkObjEndpoint rel linkObj href parent]
       | _ => [])
  | fuel + 1, rel, Json.arr linkArray, parent =>
      extractLinkDataArray fuel rel linkArray parent
  | _ + 1, _, _, _ => []
termination_by structural fuel => fuel

/-- The `for link_item in link_array` loop of `extract_from_link_data`. -/
def extractLinkDataArray : Nat → String → List Json → QueueItem →
    List ApiEndpoint
  | 0, _, _, _ => []
  | _ + 1, _, [], _ => []
  | fuel + 1, rel, li :: rest, parent =>
      extractFromLinkData fuel rel li parent ++
        extractLinkDataArray fuel rel rest parent
termination_by structural fuel => fuel

/-- The trailing `for value in obj.values()` recursion of
`extract_from_object` into nested objects and arrays. -/
def extractNested : Nat → List (String × Json) → QueueItem → List ApiEndpoint
  | 0, _, _ => []
  | _ + 1, [], _ => []
  | fuel + 1, (_, v) :: rest, parent =>
      (match v with
       | Json.obj nestedObj => extractFromObject fuel nestedObj parent
       | Json.arr a => extractNestedArray fuel a parent
       | _ => []) ++ extractNested fuel rest parent
termination_by structural fuel => fuel

/-- The array branch of the nested-values recursion: array elements that are
objects are recursed into. -/
def extractNestedArray : Nat → List Json → QueueItem → List ApiEndpoint
  | 0, _, _ => []
  | _ + 1, [], _ => []
  | fuel + 1, li :: rest, parent =>
      (match li with
       | Json.obj nestedObj => extractFromObject fuel nestedObj parent
       | _ => []) ++ extractNestedArray fuel rest parent
termination_by structural fuel => fuel

end

/-- `ApiCrawler::extract_endpoints_from_json`: dispatch on the top-level
JSON value. -/
def extractEndpointsFromJson (fuel : Nat) (json : Json)
    (parentItem : QueueItem) : List ApiEndpoint :=
  match json with
  | Json.obj obj => extractFromObject fuel obj parentItem
  | Json.arr a => extractNestedArray fuel a parentItem
  | _ => []


/-! ## Extraction invariants -/

/-- The invariant every extracted endpoint satisfies: provenance fields are
taken from the parent frontier item, and no metadata key is one of the
promoted `ApiEndpoint` field names. -/
def GoodEndpoint (parent : QueueItem) (e : ApiEndpoint) : Prop :=
  e.depth = parent.depth + 1 ∧ e.parent_url = some parent.url ∧
    ∀ p ∈ e.metadata, p.1 ∉ knownKeys

theorem metaInsert_mem {m : List (String × Json)} {k : String} {v : Json}
    {p : String × Json} (h : p ∈ metaInsert m k v) : p ∈ m ∨ p.1 = k := by
  induction m with
  | nil => simp [metaInsert] at h; simp [h]
  | cons kv rest ih =>
      rw [metaInsert] at h
      split at h
      · rcases List.mem_cons.mp h with h | h
        · right; rw [h]
        · left; exact List.mem_cons_of_mem _ h
      · rcases List.mem_cons.mp h with h | h
        · left; rw [h]; exact List.mem_cons_self _ _
        · rcases ih h with h | h
          · left; exact List.mem_cons_of_mem _ h
          · right; exact h

theorem with_metadata_depth (e : ApiEndpoint) (k : String) (v : Json) :
    (e.with_metadata k v).depth = e.depth := rfl

theorem addMetadataFields_depth (l : List (String × Json)) (e : ApiEndpoint) :
    (addMetadataFields e l).depth = e.depth := by
  induction l generalizing e with
  | nil => rfl
  | cons kv rest ih =>
      rw [addMetadataFields, List.foldl_cons]
      split
      · exact ih e
      · exact (ih _).trans rfl

theorem addMetadataFields_parent (l : List (String × Json)) (e : ApiEndpoint) :
    (addMetadataFields e l).parent_url = e.parent_url := by
  induction l generalizing e with
  | nil => rfl
  | cons kv rest ih =>
      rw [addMetadataFields, List.foldl_cons]
      split
      · exact ih e
      · exact (ih _).trans rfl

theorem addMetadataFields_mem {l : List (String × Json)} {e : ApiEndpoint}
    {p : String × Json} (h : p ∈ (addMetadataFields e l).metadata) :
    p ∈ e.metadata ∨ p.1 ∉ knownKeys := by
  induction l generalizing e with
  | nil => exact Or.inl h
  | cons kv rest ih =>
      rw [addMetadataFields, List.foldl_cons] at h
      by_cases hk : kv.1 ∈ knownKeys
      · rw [if_pos hk] at h
        exact ih h
      · rw [if_neg hk] at h
        rcases ih h with h | h
        · rcases metaInsert_mem h with h | h
          · exact Or.inl h
          · right; rw [h]; exact hk
        · exact Or.inr h

theorem mkDirectEndpoint_good (obj : List (String × Json)) (href : String)
    (parent : QueueItem) : GoodEndpoint parent (mkDirectEndpoint obj href parent) := by
  refine ⟨addMetadataFields_depth _ _, addMetadataFields_parent _ _, ?_⟩
  intro p hp
  rcases addMetadataFields_mem hp with h | h
  · simp at h
  · exact h

theorem mkLinkObjEndpoint_good (rel : String) (linkObj : List (String × Json))
    (href : String) (parent : QueueItem) :
    GoodEndpoint parent (mkLinkObjEndpoint rel linkObj href parent) := by
  refine ⟨addMetadataFields_depth _ _, addMetadataFields_parent _ _, ?_⟩
  intro p hp
  rcases addMetadataFields_mem hp with h | h
  · simp at h
  · exact h

theorem mkLinkStrEndpoint_good (rel href : String) (parent : QueueItem) :
    GoodEndpoint parent (mkLinkStrEndpoint rel href parent) := by
  refine ⟨rfl, rfl, ?_⟩
  intro p hp
  simp [mkLinkStrEndpoint] at hp

theorem urlHeuristic_good {k : String} {v : Json} {parent : QueueItem}
    {e : ApiEndpoint} (h : urlHeuristic k v parent = some e) :
    GoodEndpoint parent e := by
  rw [urlHeuristic] at h
  split at h
  · split at h
    · split at h
      · rcases Option.some.inj h with rfl
        refine ⟨rfl, rfl, ?_⟩
        intro p hp
        simp [ApiEndpoint.with_metadata, metaInsert] at hp
        subst hp
        simp [knownKeys]
      · exact absurd h (by simp)
    · exact absurd h (by simp)
  · exact absurd h (by simp)

/-- All six mutually recursive extraction functions produce only good
endpoints. -/
theorem extract_good (fuel : Nat) :
    (∀ obj parent, ∀ e ∈ extractFromObject fuel obj parent, GoodEndpoint parent e) ∧
    (∀ links parent, ∀ e ∈ extractLinksList fuel links parent, GoodEndpoint parent e) ∧
    (∀ arr parent, ∀ e ∈ extractLinksArray fuel arr parent, GoodEndpoint parent e) ∧
    (∀ rel ld parent, ∀ e ∈ extractFromLinkData fuel rel ld parent, GoodEndpoint parent e) ∧
    (∀ rel arr parent, ∀ e ∈ extractLinkDataArray fuel rel arr parent, GoodEndpoint parent e) ∧
    (∀ obj parent, ∀ e ∈ extractNested fuel obj parent, GoodEndpoint parent e) ∧
    (∀ arr parent, ∀ e ∈ extractNestedArray fuel arr parent, GoodEndpoint parent e) := by
  induction fuel with
  | zero =>
      refine ⟨?_, ?_, ?_, ?_, ?_, ?_, ?_⟩ <;>
        simp [extractFromObject, extractLinksList, extractLinksArray,
          extractFromLinkData, extractLinkDataArray, extractNested,
          extractNestedArray]
  | succ fuel ih =>
      obtain ⟨ihObj, ihLL, ihLA, ihLD, ihLDA, ihN, ihNA⟩ := ih
      refine ⟨?_, ?_, ?_, ?_, ?_, ?_, ?_⟩
      · intro obj parent e he
        rw [extractFromObject] at he
        simp only [List.mem_append] at he
        rcases he with ((((h | h) | h) | h) | h)
        · split at h
          · exact ihLL _ _ _ h
          · simp at h
        · split at h
          · exact ihLL _ _ _ h
          · exact ihLA _ _ _ h
          · simp at h
        · split at h
          · rcases List.mem_singleton.mp h with rfl
            exact mkDirectEndpoint_good _ _ _
          · simp at h
        · rcases List.mem_filterMap.mp h with ⟨kv, _, hkv⟩
          exact urlHeuristic_good hkv
        · exact ihN _ _ _ h
      · intro links parent e he
        match links with
        | [] => simp [extractLinksList] at he
        | (rel, ld) :: rest =>
            rw [extractLinksList] at he
            rcases List.mem_append.mp he with h | h
            · exact ihLD _ _ _ _ h
            · exact ihLL _ _ _ h
      · intro arr parent e he
        match arr with
        | [] => simp [extractLinksArray] at he
        | li :: rest =>
            cases li with
            | obj linkObj =>
                rw [extractLinksArray] at he
                rcases List.mem_append.mp he with h | h
                · exact ihLD _ _ _ _ h
                · exact ihLA _ _ _ h
            | null => simp only [extractLinksArray, List.nil_append] at he; exact ihLA _ _ _ he
            | bool b => simp only [extractLinksArray, List.nil_append] at he; exact ihLA _ _ _ he
            | num n => simp only [extractLinksArray, List.nil_append] at he; exact ihLA _ _ _ he
            | str s => simp only [extractLinksArray, List.nil_append] at he; exact ihLA _ _ _ he
            | arr a => simp only [extractLinksArray, List.nil_append] at he; exact ihLA _ _ _ he
      · intro rel ld parent e he
        match ld with
        | Json.str href =>
            rw [extractFromLinkData] at he
            rcases List.mem_singleton.mp he with rfl
            exact mkLinkStrEndpoint_good _ _ _
        | Json.obj linkObj =>
            rw [extractFromLinkData] at he
            split at he
            · rcases List.mem_singleton.mp he with rfl
              exact mkLinkObjEndpoint_good _ _ _ _
            · simp at he
        | Json.arr linkArray =>
            rw [extractFromLinkData] at he
            exact ihLDA _ _ _ _ he
        | Json.null => simp [extractFromLinkData] at he
        | Json.bool b => simp [extractFromLinkData] at he
        | Json.num n => simp [extractFromLinkData] at he
      · intro rel arr parent e he
        match arr with
        | [] => simp [extractLinkDataArray] at he
        | li :: rest =>
            rw [extractLinkDataArray] at he
            rcases List.mem_append.mp he with h | h
            · exact ihLD _ _ _ _ h
            · exact ihLDA _ _ _ _ h
      · intro obj parent e he
        match obj with
        | [] => simp [extractNested] at he
        | (k, v) :: rest =>
            cases v with
            | obj nestedObj =>
                rw [extractNested] at he
                rcases List.mem_append.mp he with h | h
                · exact ihObj _ _ _ h
                · exact ihN _ _ _ h
            | arr a =>
                rw [extractNested] at he
                rcases List.mem_append.mp he with h | h
                · exact ihNA _ _ _ h
                · exact ihN _ _ _ h
            | null => simp only [extractNested, List.nil_append] at he; exact ihN _ _ _ he
            | bool b => simp only [extractNested, List.nil_append] at he; exact ihN _ _ _ he
            | num n => simp only [extractNested, List.nil_append] at he; exact ihN _ _ _ he
            | str s => simp only [extractNested, List.nil_append] at he; exact ihN _ _ _ he
      · intro arr parent e he
        match arr with
        | [] => simp [extractNestedArray] at he
        | li :: rest =>
            cases li with
            | obj nestedObj =>
                rw [extractNestedArray] at he
                rcases List.mem_append.mp he with h | h
                · exact ihObj _ _ _ h
                · exact ihNA _ _ _ h
            | null => simp only [extractNestedArray, List.nil_append] at he; exact ihNA _ _ _ he
            | bool b => simp only [extractNestedArray, List.nil_append] at he; exact ihNA _ _ _ he
            | num n => simp only [extractNestedArray, List.nil_append] at he; exact ihNA _ _ _ he
            | str s => simp only [extractNestedArray, List.nil_append] at he; exact ihNA _ _ _ he
            | arr a => simp only [extractNestedArray, List.nil_append] at he; exact ihNA _ _ _ he

theorem extractEndpointsFromJson_good (fuel : Nat) (json : Json)
    (parentItem : QueueItem) :
    ∀ e ∈ extractEndpointsFromJson fuel json parentItem,
      GoodEndpoint parentItem e := by
  intro e he
  match json with
  | Json.obj obj => exact (extract_good fuel).1 _ _ _ he
  | Json.arr a => exact (extract_good fuel).2.2.2.2.2.2 _ _ _ he
  | Json.null => simp [extractEndpointsFromJson] at he
  | Json.bool b => simp [extractEndpointsFromJson] at he
  | Json.num n => simp [extractEndpointsFromJson] at he
  | Json.str s => simp [extractEndpointsFromJson] at he


/-! ## Claim C6: `should_crawl` -/

/-- **C6**: for every endpoint `e`, `should_crawl e` returns `false` if and
only if `e.rel` equals `"self"`; it returns `true` for every other relation
value and when `rel` is absent (`none`). -/
theorem c6_should_crawl_false_iff_self (e : ApiEndpoint) :
    e.should_crawl = false ↔ e.rel = some "self" := by
  simp [ApiEndpoint.should_crawl]

/-! ## Claim C7: extraction depth and parent provenance -/

/-- **C7**: for every JSON document and every parent frontier item, every
endpoint produced by extraction from that document has depth equal to the
parent item's depth + 1 and parentUrl equal to the parent item's URL,
regardless of how deeply nested the originating field is. -/
theorem c7_extraction_depth_parent (fuel : Nat) (json : Json)
    (parentItem : QueueItem) (e : ApiEndpoint)
    (he : e ∈ extractEndpointsFromJson fuel json parentItem) :
    e.depth = parentItem.depth + 1 ∧ e.parent_url = some parentItem.url :=
  ⟨(extractEndpointsFromJson_good fuel json parentItem e he).1,
   (extractEndpointsFromJson_good fuel json parentItem e he).2.1⟩

/-- Concrete parent item used by the extraction witnesses. -/
def wParent : QueueItem := ⟨"http://s", 0, none⟩

/-- Concrete HAL document used by the C7 witness. -/
def wDocC7 : Json := Json.obj [("_links", Json.obj [("next", Json.str "/b")])]

theorem c7_witness :
    (mkLinkStrEndpoint "next" "/b" wParent).depth = wParent.depth + 1 ∧
      (mkLinkStrEndpoint "next" "/b" wParent).parent_url = some wParent.url :=
  c7_extraction_depth_parent 10 wDocC7 wParent _ (List.Mem.head _)

/-! ## Claim C8: metadata never contains promoted keys -/

/-- **C8**: for every endpoint produced by extraction, its metadata map never
contains any of the keys `"href"`, `"rel"`, `"method"`, `"type"`, `"title"`:
those keys, when present in the source link object, populate the dedicated
fields instead. -/
theorem c8_metadata_no_promoted_keys (fuel : Nat) (json : Json)
    (parentItem : QueueItem) (e : ApiEndpoint)
    (he : e ∈ extractEndpointsFromJson fuel json parentItem)
    (p : String × Json) (hp : p ∈ e.metadata) :
    p.1 ∉ ["href", "rel", "method", "type", "title"] :=
  (extractEndpointsFromJson_good fuel json parentItem e he).2.2 p hp

/-- Concrete object (with a promoted key `rel` and a custom key) used by the
C8 witness. -/
def wObjC8 : List (String × Json) :=
  [("href", Json.str "/x"), ("rel", Json.str "next"), ("custom", Json.num 42)]

theorem c8_witness :
    ("custom", Json.num 42).1 ∉ ["href", "rel", "method", "type", "title"] :=
  c8_metadata_no_promoted_keys 10 (Json.obj wObjC8) wParent
    (mkDirectEndpoint wObjC8 "/x" wParent) (List.Mem.head _)
    ("custom", Json.num 42) (List.Mem.head _)



/-! ## Tree reconstruction (`output.rs::serialize_tree_result`) -/

/-- Rust `str::split('/')`, on character lists (splits on every slash,
keeping empty segments). -/
def splitSlash : List Char → List (List Char)
  | [] => [[]]
  | c :: rest =>
      match splitSlash rest with
      | seg :: segs => if c = '/' then [] :: seg :: segs else (c :: seg) :: segs
      | [] => [[]]

/-- `href.split('/').last()`: the last path segment of an href (the split of
any string is non-empty, so Rust's `unwrap_or` default is never used). -/
def lastSegment (s : String) : List Char :=
  (splitSlash s.toList).getLastD []

/-- Lexicographic comparison of character lists: Rust's `str::cmp` produces
`Less` exactly when this is `true`. -/
def charListLt : List Char → List Char → Bool
  | [], [] => false
  | [], _ :: _ => true
  | _ :: _, [] => false
  | a :: as, b :: bs =>
      if a < b then true else if b < a then false else charListLt as bs

/-- The child comparator of `serialize_tree_result`:
`a.depth.cmp(&b.depth).then_with(|| name_a.cmp(name_b))` is `Less`. -/
def childLt (a b : ApiEndpoint) : Bool :=
  decide (a.depth < b.depth) ||
    (decide (a.depth = b.depth) &&
      charListLt (lastSegment a.href) (lastSegment b.href))

/-- Stable insertion w.r.t. `childLt`: the new element goes after all
existing elements it is not strictly less than. -/
def insertSorted (x : ApiEndpoint) : List ApiEndpoint → List ApiEndpoint
  | [] => [x]
  | b :: t => if childLt x b then x :: b :: t else b :: insertSorted x t

/-- `children.sort_by(comparator)`: Rust's sort is stable, and stable
sorting w.r.t. a total preorder is unique, so stable insertion sort models
it exactly. -/
def sortChildren (l : List ApiEndpoint) : List ApiEndpoint :=
  l.foldl (fun acc x => insertSorted x acc) []

/-- Association-list lookup for the `unique_endpoints` `HashMap`. -/
def epLookup (m : List (String × ApiEndpoint)) (k : String) :
    Option ApiEndpoint :=
  match m with
  | [] => none
  | (k', v) :: rest => if k' = k then some v else epLookup rest k

/-- `HashMap::insert` for the `unique_endpoints` map. -/
def epInsert (m : List (String × ApiEndpoint)) (k : String) (v : ApiEndpoint) :
    List (String × ApiEndpoint) :=
  match m with
  | [] => [(k, v)]
  | (k', v') :: rest =>
      if k' = k then (k, v) :: rest else (k', v') :: epInsert rest k v

/-- One step of the deduplication loop of `serialize_tree_result` (output.rs
lines 262-278): a new record replaces the current survivor for its href iff
it has strictly more metadata, or it is not rel `"self"` while the survivor
is. -/
def dedupStep (m : List (String × ApiEndpoint)) (endpoint : ApiEndpoint) :
    List (String × ApiEndpoint) :=
  match epLookup m endpoint.href with
  | some existing =>
      if endpoint.metadata.length > existing.metadata.length
          || (decide (endpoint.rel ≠ some "self") &&
              decide (existing.rel = some "self")) then
        epInsert m endpoint.href endpoint
      else m
  | none => epInsert m endpoint.href endpoint

/-- `unique_endpoints`: fold the deduplication step over `result.endpoints`
in order.  The association list models the final `HashMap` contents; the
order in which `HashMap::values()` later yields them is NOT determined by
the contents and is therefore an explicit parameter (`IsDedupOrder`). -/
def uniqueEndpoints (endpoints : List ApiEndpoint) :
    List (String × ApiEndpoint) :=
  endpoints.foldl dedupStep []

/-- `order` is a possible iteration order of
`unique_endpoints.values().collect()`. -/
def IsDedupOrder (endpoints order : List ApiEndpoint) : Prop :=
  List.Perm order ((uniqueEndpoints endpoints).map Prod.snd)

/-- The `"api"` info block emitted for one endpoint. -/
structure ApiInfo where
  name : List Char
  url : String
  rel : String
  depth : Nat
  method : Option String
  type : Option String
  title : Option String
deriving Repr, DecidableEq

/-- A node of the emitted `api_tree`: the `"api"` block plus the (possibly
empty, then omitted from the JSON) `"children"` array. -/
inductive TreeNode where
  | mk (api : ApiInfo) (children : List TreeNode)
deriving Repr

def TreeNode.api : TreeNode → ApiInfo
  | .mk a _ => a

def TreeNode.children : TreeNode → List TreeNode
  | .mk _ c => c

/-- The endpoint-info block of `build_tree_node` / the root block:
`rel` prefers a string-valued `"rel"` metadata entry, then the `rel` field,
then the default (`"unknown"` for inner nodes, `"self"` for the root). -/
def mkApiInfo (e : ApiEndpoint) (dflt : String) : ApiInfo :=
  { name := lastSegment e.href
    url := e.href
    rel := match (jGet e.metadata "rel").bind Json.asStr with
      | some s => s
      | none => e.rel.getD dflt
    depth := e.depth
    method := e.method
    type := e.type
    title := e.title }

/-- The child filter of `build_tree_node` (output.rs lines 331-339) and of
the root-children loop (lines 412-420): records whose `parent_url` is the
node's href, not yet placed, and not the node itself.  Note: there is no
depth condition. -/
def childFilter (all : List ApiEndpoint) (processed : List String)
    (href : String) : List ApiEndpoint :=
  all.filter fun e =>
    decide (e.parent_url = some href) && !(processed.contains e.href) &&
      decide (e.href ≠ href)

/-- `build_tree_node`: build the subtree rooted at `endpoint`, threading the
global `processed` set.  The fuel bounds the recursion depth;
`buildTreeNode_isSome` below proves that `unplacedCount + 1` fuel always
suffices, which is the Rust function's termination argument. -/
def buildTreeNode : Nat → List ApiEndpoint → List String → ApiEndpoint →
    Option (TreeNode × List String)
  | 0, _, _, _ => none
  | fuel + 1, allEndpoints, processed, endpoint =>
      let children := sortChildren (childFilter allEndpoints processed endpoint.href)
      match children.foldl
        (fun acc child =>
          match acc with
          | none => none
          | some (nodes, proc) =>
              if proc.contains child.href then some (nodes, proc)
              else
                match buildTreeNode fuel allEndpoints (child.href :: proc) child with
                | none => none
                | some (node, proc') => some (nodes ++ [node], proc'))
        (some ([], processed)) with
      | none => none
      | some (nodes, proc') =>
          some (TreeNode.mk (mkApiInfo endpoint "unknown") nodes, proc')
termination_by structural fuel => fuel

/-- The root-selection chain of `serialize_tree_result` (lines 368-389). -/
def findRootEndpoint (startUrl : String) (eps : List ApiEndpoint) :
    Option ApiEndpoint :=
  match eps.find? (fun e =>
      decide (e.href = startUrl) && decide (e.parent_url = some startUrl) &&
        decide (e.rel = some "self")) with
  | some e => some e
  | none =>
      match eps.find? (fun e => decide (e.href = startUrl)) with
      | some e => some e
      | none =>
          match eps.find? (fun e => decide (e.depth = 0)) with
          | some e => some e
          | none => eps.head?

/-- The `api_tree` value built by `serialize_tree_result` from the
deduplicated records in iteration order `order` (`none` models
`Value::Null`, produced when no root exists, i.e. when `order` is empty). -/
def apiTreeF (fuel : Nat) (startUrl : String) (order : List ApiEndpoint) :
    Option TreeNode :=
  match findRootEndpoint startUrl order with
  | none => none
  | some root =>
      let processed := [root.href]
      let children := sortChildren (childFilter order processed root.href)
      match children.foldl
        (fun acc child =>
          match acc with
          | none => none
          | some (nodes, proc) =>
              if proc.contains child.href then some (nodes, proc)
              else
                match buildTreeNode fuel order (child.href :: proc) child with
                | none => none
                | some (node, proc') => some (nodes ++ [node], proc'))
        (some ([], processed)) with
      | none => none
      | some (nodes, _) => some (TreeNode.mk (mkApiInfo root "self") nodes)

/-- Distinct hrefs of `all` not yet in `processed`: the quantity that shrinks
at every recursive `build_tree_node` call. -/
def unplacedCount (all : List ApiEndpoint) (processed : List String) : Nat :=
  (((all.map ApiEndpoint.href).dedup).filter
    (fun h => !processed.contains h)).length

/-- The tree output on a finished result: the Rust recursion needs no fuel,
and `order.length + 1` fuel is proved sufficient (`apiTree_isSome`). -/
def apiTree (startUrl : String) (order : List ApiEndpoint) : Option TreeNode :=
  apiTreeF (order.length + 1) startUrl order

/-! ## Termination of the tree walk (fuel sufficiency) -/

theorem contains_eq_mem (l : List String) (a : String) :
    l.contains a = decide (a ∈ l) := by
  by_cases h : a ∈ l
  · rw [decide_eq_true h]
    exact List.elem_iff.mpr h
  · rw [decide_eq_false h]
    exact Bool.eq_false_iff.mpr fun hc => h (List.elem_iff.mp hc)

theorem unplacedCount_le_of_subset {all : List ApiEndpoint}
    {p q : List String} (h : p ⊆ q) :
    unplacedCount all q ≤ unplacedCount all p := by
  unfold unplacedCount
  rw [← List.countP_eq_length_filter, ← List.countP_eq_length_filter]
  apply List.countP_mono_left
  intro x _ hx
  simp only [Bool.not_eq_true', contains_eq_mem, decide_eq_false_iff_not] at hx ⊢
  exact fun hc => hx (h hc)

theorem length_filter_notmem_cons_lt {l : List String} (hl : l.Nodup)
    {h : String} {proc : List String} (hmem : h ∈ l) (hnp : h ∉ proc) :
    (l.filter (fun x => decide (x ∉ h :: proc))).length <
      (l.filter (fun x => decide (x ∉ proc))).length := by
  induction l with
  | nil => simp at hmem
  | cons a t iht =>
      rw [List.nodup_cons] at hl
      rw [List.filter_cons, List.filter_cons]
      by_cases hah : a = h
      · subst hah
        rw [if_neg (by simp), if_pos (by simp [hnp])]
        have h1 : t.filter (fun x => decide (x ∉ a :: proc)) =
            t.filter (fun x => decide (x ∉ proc)) := by
          apply List.filter_congr
          intro x hx
          have hxa : x ≠ a := fun hxa => hl.1 (hxa ▸ hx)
          simp [hxa]
        rw [h1]
        simp
      · have hmem' : h ∈ t := by
          rcases List.mem_cons.mp hmem with h' | h'
          · exact absurd h'.symm hah
          · exact h'
        have hcond : (decide (a ∉ h :: proc)) = (decide (a ∉ proc)) := by
          rw [decide_eq_decide]
          simp [hah]
        rw [hcond]
        by_cases hap : a ∈ proc
        · rw [if_neg (by simp [hap]), if_neg (by simp [hap])]
          exact iht hl.2 hmem'
        · rw [if_pos (by simp [hap]), if_pos (by simp [hap])]
          simpa using iht hl.2 hmem'

theorem length_filter_cons_lt {l : List String} (hl : l.Nodup) {h : String}
    {proc : List String} (hmem : h ∈ l) (hnp : h ∉ proc) :
    (l.filter (fun x => !(h :: proc).contains x)).length <
      (l.filter (fun x => !proc.contains x)).length := by
  have e1 : l.filter (fun x => !(h :: proc).contains x) =
      l.filter (fun x => decide (x ∉ h :: proc)) :=
    List.filter_congr fun x _ => by rw [contains_eq_mem, ← decide_not]
  have e2 : l.filter (fun x => !proc.contains x) =
      l.filter (fun x => decide (x ∉ proc)) :=
    List.filter_congr fun x _ => by rw [contains_eq_mem, ← decide_not]
  rw [e1, e2]
  exact length_filter_notmem_cons_lt hl hmem hnp

theorem unplacedCount_cons_lt {all : List ApiEndpoint} {proc : List String}
    {h : String} (hmem : h ∈ all.map ApiEndpoint.href) (hnp : h ∉ proc) :
    unplacedCount all (h :: proc) < unplacedCount all proc :=
  length_filter_cons_lt (List.nodup_dedup _) (List.mem_dedup.mpr hmem) hnp

theorem unplacedCount_le_length (all : List ApiEndpoint)
    (proc : List String) : unplacedCount all proc ≤ all.length := by
  unfold unplacedCount
  calc (((all.map ApiEndpoint.href).dedup).filter _).length
      ≤ ((all.map ApiEndpoint.href).dedup).length :=
        (List.filter_sublist _).length_le
    _ ≤ (all.map ApiEndpoint.href).length :=
        (List.dedup_sublist _).length_le
    _ = all.length := List.length_map _ _

/-- Invariant-preserving fold: if every step on a `some` accumulator yields
`some` with a grown `proc` component preserving `Q`, so does the whole fold. -/
theorem foldl_some_of_step {β : Type} 
    (f : Option (List TreeNode × List String) → β →
      Option (List TreeNode × List String))
    (Q : List String → Prop) (R : β → Prop)
    (hstep : ∀ ns proc c, R c → Q proc →
      ∃ ns' proc', f (some (ns, proc)) c = some (ns', proc') ∧
        proc ⊆ proc' ∧ Q proc') :
    ∀ cs : List β, (∀ c ∈ cs, R c) → ∀ ns proc, Q proc →
      ∃ ns' proc', cs.foldl f (some (ns, proc)) = some (ns', proc') ∧
        proc ⊆ proc' ∧ Q proc' := by
  intro cs
  induction cs with
  | nil =>
      intro _ ns proc hQ
      exact ⟨ns, proc, rfl, fun x hx => hx, hQ⟩
  | cons c cs ih =>
      intro hR ns proc hQ
      obtain ⟨ns1, proc1, hf, hsub1, hQ1⟩ :=
        hstep ns proc c (hR c (List.mem_cons_self _ _)) hQ
      obtain ⟨ns', proc', hfold, hsub2, hQ'⟩ :=
        ih (fun x hx => hR x (List.mem_cons_of_mem _ hx)) ns1 proc1 hQ1
      refine ⟨ns', proc', ?_, fun x hx => hsub2 (hsub1 hx), hQ'⟩
      rw [List.foldl_cons, hf]
      exact hfold

theorem mem_insertSorted {x y : ApiEndpoint} {l : List ApiEndpoint} :
    x ∈ insertSorted y l ↔ x = y ∨ x ∈ l := by
  induction l with
  | nil => simp [insertSorted]
  | cons b t ih =>
      rw [insertSorted]
      split
      · simp [List.mem_cons]
      · simp only [List.mem_cons, ih]
        tauto

theorem mem_sortChildren {x : ApiEndpoint} {l : List ApiEndpoint} :
    x ∈ sortChildren l ↔ x ∈ l := by
  suffices h : ∀ (l : List ApiEndpoint) (acc : List ApiEndpoint),
      x ∈ l.foldl (fun acc y => insertSorted y acc) acc ↔ x ∈ acc ∨ x ∈ l by
    rw [sortChildren, h l []]
    simp
  intro l
  induction l with
  | nil => simp
  | cons b t ih =>
      intro acc
      rw [List.foldl_cons, ih, mem_insertSorted]
      simp only [List.mem_cons]
      tauto

theorem mem_childFilter {all : List ApiEndpoint} {processed : List String}
    {href : String} {e : ApiEndpoint} (h : e ∈ childFilter all processed href) :
    e ∈ all ∧ e.parent_url = some href ∧ e.href ∉ processed ∧ e.href ≠ href := by
  rw [childFilter, List.mem_filter] at h
  refine ⟨h.1, ?_⟩
  have h2 := h.2
  simp only [Bool.and_eq_true, decide_eq_true_eq, Bool.not_eq_true',
    contains_eq_mem, decide_eq_false_iff_not] at h2
  exact ⟨h2.1.1, h2.1.2, h2.2⟩

theorem buildTreeNode_isSome :
    ∀ (fuel : Nat) (all : List ApiEndpoint) (processed : List String)
      (e : ApiEndpoint), unplacedCount all processed < fuel →
      ∃ t proc', buildTreeNode fuel all processed e = some (t, proc') ∧
        processed ⊆ proc' := by
  intro fuel
  induction fuel with
  | zero => intro all proc e h; omega
  | succ fuel ih =>
      intro all proc e h
      rw [buildTreeNode]
      obtain ⟨ns', proc', hfold, hsub, _⟩ :=
        foldl_some_of_step
          (fun acc child =>
            match acc with
            | none => none
            | some (nodes, proc) =>
                if proc.contains child.href then some (nodes, proc)
                else
                  match buildTreeNode fuel all (child.href :: proc) child with
                  | none => none
                  | some (node, proc') => some (nodes ++ [node], proc'))
          (fun p => unplacedCount all p ≤ fuel) (fun c => c ∈ all)
          (by
            intro ns proc c hcall hQ
            by_cases hmem : proc.contains c.href
            · refine ⟨ns, proc, ?_, fun x hx => hx, hQ⟩
              show (if proc.contains c.href = true then some (ns, proc)
                    else match buildTreeNode fuel all (c.href :: proc) c with
                      | none => none
                      | some (node, proc') => some (ns ++ [node], proc')) =
                  some (ns, proc)
              rw [if_pos hmem]
            · have hhref : c.href ∈ all.map ApiEndpoint.href :=
                List.mem_map.mpr ⟨c, hcall, rfl⟩
              have hnp : c.href ∉ proc := by
                simpa [contains_eq_mem] using hmem
              have hlt : unplacedCount all (c.href :: proc) < fuel :=
                lt_of_lt_of_le (unplacedCount_cons_lt hhref hnp) hQ
              obtain ⟨t, proc', heq, hsub⟩ := ih all (c.href :: proc) c hlt
              refine ⟨ns ++ [t], proc', ?_, ?_, ?_⟩
              case _ =>
                show (if proc.contains c.href = true then some (ns, proc)
                      else match buildTreeNode fuel all (c.href :: proc) c with
                        | none => none
                        | some (node, proc') => some (ns ++ [node], proc')) =
                    some (ns ++ [t], proc')
                rw [if_neg hmem, heq]
              · exact fun x hx => hsub (List.mem_cons_of_mem _ hx)
              · calc unplacedCount all proc'
                    ≤ unplacedCount all (c.href :: proc) :=
                      unplacedCount_le_of_subset hsub
                  _ ≤ fuel := le_of_lt hlt)
          (sortChildren (childFilter all proc e.href))
          (fun c hc => (mem_childFilter (mem_sortChildren.mp hc)).1)
          [] proc (Nat.lt_succ_iff.mp h)
      rw [hfold]
      exact ⟨_, proc', rfl, hsub⟩

theorem findRootEndpoint_isSome {startUrl : String}
    {order : List ApiEndpoint} (h : order ≠ []) :
    ∃ r, findRootEndpoint startUrl order = some r ∧ r ∈ order := by
  rw [findRootEndpoint]
  split
  · next e heq => exact ⟨e, rfl, List.mem_of_find?_eq_some heq⟩
  · split
    · next e heq => exact ⟨e, rfl, List.mem_of_find?_eq_some heq⟩
    · split
      · next e heq => exact ⟨e, rfl, List.mem_of_find?_eq_some heq⟩
      · match order, h with
        | e :: rest, _ => exact ⟨e, rfl, List.mem_cons_self _ _⟩

theorem apiTree_isSome {startUrl : String} {order : List ApiEndpoint}
    (h : order ≠ []) : ∃ t, apiTree startUrl order = some t := by
  obtain ⟨r, hr, hrmem⟩ := @findRootEndpoint_isSome startUrl order h
  rw [apiTree, apiTreeF, hr]
  dsimp only
  obtain ⟨ns', proc', hfold, _, _⟩ :=
    foldl_some_of_step
      (fun acc child =>
        match acc with
        | none => none
        | some (nodes, proc) =>
            if proc.contains child.href then some (nodes, proc)
            else
              match buildTreeNode (order.length + 1) order (child.href :: proc) child with
              | none => none
              | some (node, proc') => some (nodes ++ [node], proc'))
      (fun p => unplacedCount order p ≤ order.length) (fun c => c ∈ order)
      (by
        intro ns proc c hcall hQ
        by_cases hmem : proc.contains c.href
        · refine ⟨ns, proc, ?_, fun x hx => hx, hQ⟩
          show (if proc.contains c.href = true then some (ns, proc)
                else match buildTreeNode (order.length + 1) order (c.href :: proc) c with
                  | none => none
                  | some (node, proc') => some (ns ++ [node], proc')) =
              some (ns, proc)
          rw [if_pos hmem]
        · have hhref : c.href ∈ order.map ApiEndpoint.href :=
            List.mem_map.mpr ⟨c, hcall, rfl⟩
          have hnp : c.href ∉ proc := by
            simpa [contains_eq_mem] using hmem
          have hlt : unplacedCount order (c.href :: proc) < order.length :=
            lt_of_lt_of_le (unplacedCount_cons_lt hhref hnp) hQ
          obtain ⟨t, proc', heq, hsub⟩ :=
            buildTreeNode_isSome (order.length + 1) order (c.href :: proc) c (Nat.lt_succ_of_lt hlt)
          refine ⟨ns ++ [t], proc', ?_, ?_, ?_⟩
          case _ =>
            show (if proc.contains c.href = true then some (ns, proc)
                  else match buildTreeNode (order.length + 1) order (c.href :: proc) c with
                    | none => none
                    | some (node, proc') => some (ns ++ [node], proc')) =
                some (ns ++ [t], proc')
            rw [if_neg hmem, heq]
          · exact fun x hx => hsub (List.mem_cons_of_mem _ hx)
          · calc unplacedCount order proc'
                ≤ unplacedCount order (c.href :: proc) :=
                  unplacedCount_le_of_subset hsub
              _ ≤ order.length := le_of_lt hlt)
      (sortChildren (childFilter order [r.href] r.href))
      (fun c hc => (mem_childFilter (mem_sortChildren.mp hc)).1)
      [] [r.href] (unplacedCount_le_length _ _)
  rw [hfold]
  exact ⟨_, rfl⟩

/-! ## Claim C10: the tree walk terminates -/

/-- **C10**: the nested-tree construction terminates for every finite input,
including cyclic `parentUrl` chains and self-parenting records: a recursive
call happens only after inserting the child's previously-unplaced href into
the global processed set, so the number of unplaced hrefs strictly shrinks,
and fuel exceeding it (in particular `order.length + 1`, as used by
`apiTree`) always produces a result. -/
theorem c10_tree_construction_terminates :
    (∀ (fuel : Nat) (all : List ApiEndpoint) (processed : List String)
        (e : ApiEndpoint), unplacedCount all processed < fuel →
        (buildTreeNode fuel all processed e).isSome = true) ∧
    (∀ (startUrl : String) (order : List ApiEndpoint), order ≠ [] →
        (apiTree startUrl order).isSome = true) := by
  constructor
  · intro fuel all proc e h
    obtain ⟨t, p, heq, _⟩ := buildTreeNode_isSome fuel all proc e h
    rw [heq]
    rfl
  · intro s order h
    obtain ⟨t, heq⟩ := apiTree_isSome h
    rw [heq]
    rfl

/-- A record that names another as parent while that one names it back: a
parent cycle. -/
def cycA : ApiEndpoint := { href := "http://a", depth := 0, parent_url := some "http://b" }

def cycB : ApiEndpoint := { href := "http://b", depth := 0, parent_url := some "http://a" }

theorem c10_witness :
    (buildTreeNode 3 [cycA, cycB] [] cycA).isSome = true ∧
      (apiTree "http://a" [cycA, cycB]).isSome = true :=
  ⟨c10_tree_construction_terminates.1 3 [cycA, cycB] [] cycA (by decide),
   c10_tree_construction_terminates.2 "http://a" [cycA, cycB]
     (List.cons_ne_nil _ _)⟩

/-! ## Soundness of attached children (claims about tree edges) -/

/-- All parent-child edges of a tree, as pairs of `api` blocks. -/
def TreeNode.edges : TreeNode → List (ApiInfo × ApiInfo)
  | .mk api cs =>
      cs.map (fun c => (api, c.api)) ++
        (cs.attach.map (fun c => TreeNode.edges c.1)).flatten
decreasing_by
  have h := List.sizeOf_lt_of_mem c.2
  simp only [TreeNode.mk.sizeOf_spec]
  omega

/-- What is true of every edge the serializer emits: both endpoints of the
edge correspond to records of the deduplicated set, and the child's record
names the parent node's url as its `parent_url` (and is not the parent
itself).  Note the absence of any depth relation. -/
def EdgeOK (all : List ApiEndpoint) (pc : ApiInfo × ApiInfo) : Prop :=
  (∃ cp ∈ all, cp.href = pc.1.url) ∧
    ∃ c ∈ all, c.href = pc.2.url ∧ c.parent_url = some pc.1.url ∧
      c.href ≠ pc.1.url

theorem mkApiInfo_url (e : ApiEndpoint) (d : String) :
    (mkApiInfo e d).url = e.href := rfl

theorem foldl_build_none (fuel : Nat) (all : List ApiEndpoint)
    (cs : List ApiEndpoint) :
    cs.foldl
      (fun acc child =>
        match acc with
        | none => none
        | some (nodes, proc) =>
            if proc.contains child.href then some (nodes, proc)
            else
              match buildTreeNode fuel all (child.href :: proc) child with
              | none => none
              | some (node, proc') => some (nodes ++ [node], proc'))
      (none : Option (List TreeNode × List String)) = none := by
  induction cs with
  | nil => rfl
  | cons c cs ih => exact ih

theorem foldl_build_mem (fuel : Nat) (all : List ApiEndpoint) :
    ∀ (cs : List ApiEndpoint) (ns0 : List TreeNode) (proc0 : List String)
      (ns' : List TreeNode) (proc' : List String),
      cs.foldl
        (fun acc child =>
          match acc with
          | none => none
          | some (nodes, proc) =>
              if proc.contains child.href then some (nodes, proc)
              else
                match buildTreeNode fuel all (child.href :: proc) child with
                | none => none
                | some (node, proc') => some (nodes ++ [node], proc'))
        (some (ns0, proc0)) = some (ns', proc') →
      ∀ n ∈ ns', n ∈ ns0 ∨
        ∃ c p pr, c ∈ cs ∧ buildTreeNode fuel all (c.href :: p) c = some (n, pr) := by
  intro cs
  induction cs with
  | nil =>
      intro ns0 proc0 ns' proc' h n hn
      rw [List.foldl_nil] at h
      rcases Option.some.inj h with h
      rw [← (Prod.mk.injEq _ _ _ _).mp h |>.1] at hn
      exact Or.inl hn
  | cons c cs ih =>
      intro ns0 proc0 ns' proc' h n hn
      rw [List.foldl_cons] at h
      dsimp only at h
      by_cases hmem : proc0.contains c.href
      · rw [if_pos hmem] at h
        rcases ih ns0 proc0 ns' proc' h n hn with h' | ⟨c', p, pr, hc', hb⟩
        · exact Or.inl h'
        · exact Or.inr ⟨c', p, pr, List.mem_cons_of_mem _ hc', hb⟩
      · rw [if_neg hmem] at h
        rcases hb : buildTreeNode fuel all (c.href :: proc0) c with _ | ⟨node, pr⟩
        · rw [hb] at h
          rw [foldl_build_none] at h
          exact absurd h (by simp)
        · rw [hb] at h
          dsimp only at h
          rcases ih _ _ _ _ h n hn with h' | ⟨c', p, pr', hc', hb'⟩
          · rcases List.mem_append.mp h' with h'' | h''
            · exact Or.inl h''
            · rcases List.mem_singleton.mp h'' with rfl
              exact Or.inr ⟨c, proc0, pr, List.mem_cons_self _ _, hb⟩
          · exact Or.inr ⟨c', p, pr', List.mem_cons_of_mem _ hc', hb'⟩

theorem buildTreeNode_sound :
    ∀ (fuel : Nat) (all : List ApiEndpoint) (proc : List String)
      (e : ApiEndpoint) (t : TreeNode) (proc' : List String),
      e ∈ all → buildTreeNode fuel all proc e = some (t, proc') →
      t.api = mkApiInfo e "unknown" ∧ ∀ pc ∈ t.edges, EdgeOK all pc := by
  intro fuel
  induction fuel with
  | zero => intro all proc e t proc' _ h; exact absurd h (by simp [buildTreeNode])
  | succ fuel ih =>
      intro all proc e t proc' he h
      rw [buildTreeNode] at h
      split at h
      · exact absurd h (by simp)
      · next ns procF hfold =>
          rcases Option.some.inj h with h
          obtain ⟨h1, h2⟩ := Prod.mk.injEq _ _ _ _ |>.mp h
          subst h1
          refine ⟨rfl, ?_⟩
          intro pc hpc
          rw [TreeNode.edges] at hpc
          have main : ∀ n ∈ ns, ∃ c, c ∈ all ∧ c.parent_url = some e.href ∧
              c.href ≠ e.href ∧ n.api = mkApiInfo c "unknown" ∧
              ∀ q ∈ n.edges, EdgeOK all q := by
            intro n hn
            rcases foldl_build_mem fuel all _ [] proc ns procF hfold n hn with
              h' | ⟨c, p, pr, hc, hb⟩
            · simp at h'
            · obtain ⟨hcall, hcp, _, hchne⟩ :=
                mem_childFilter (mem_sortChildren.mp hc)
              obtain ⟨hapi, hedges⟩ := ih all (c.href :: p) c n pr hcall hb
              exact ⟨c, hcall, hcp, hchne, hapi, hedges⟩
          rcases List.mem_append.mp hpc with hd | hj
          · obtain ⟨n, hn, rfl⟩ := List.mem_map.mp hd
            obtain ⟨c, hcall, hcp, hchne, hapi, _⟩ := main n hn
            constructor
            · exact ⟨e, he, rfl⟩
            · refine ⟨c, hcall, ?_, hcp, hchne⟩
              rw [hapi, mkApiInfo_url]
          · rw [List.mem_flatten] at hj
            obtain ⟨le, hle, hpc'⟩ := hj
            rw [List.mem_map] at hle
            obtain ⟨⟨n, hn⟩, _, rfl⟩ := hle
            obtain ⟨c, _, _, _, _, hedges⟩ := main n hn
            exact hedges pc hpc'

theorem findRootEndpoint_mem {startUrl : String} {order : List ApiEndpoint}
    {r : ApiEndpoint} (h : findRootEndpoint startUrl order = some r) :
    r ∈ order := by
  rw [findRootEndpoint] at h
  split at h
  · next heq =>
      rcases Option.some.inj h with rfl
      exact List.mem_of_find?_eq_some heq
  · split at h
    · next heq =>
        rcases Option.some.inj h with rfl
        exact List.mem_of_find?_eq_some heq
    · split at h
      · next heq =>
          rcases Option.some.inj h with rfl
          exact List.mem_of_find?_eq_some heq
      · exact List.mem_of_mem_head? h

theorem apiTree_sound (s : String) (order : List ApiEndpoint) (t : TreeNode)
    (h : apiTree s order = some t) :
    (∃ r ∈ order, findRootEndpoint s order = some r ∧
        t.api = mkApiInfo r "self") ∧
      ∀ pc ∈ t.edges, EdgeOK order pc := by
  rw [apiTree, apiTreeF] at h
  split at h
  · exact absurd h (by simp)
  · next r hroot =>
      dsimp only at h
      split at h
      · exact absurd h (by simp)
      · next ns procF hfold =>
          rcases Option.some.inj h with rfl
          have hrmem : r ∈ order := findRootEndpoint_mem hroot
          refine ⟨⟨r, hrmem, hroot, rfl⟩, ?_⟩
          intro pc hpc
          rw [TreeNode.edges] at hpc
          have main : ∀ n ∈ ns, ∃ c, c ∈ order ∧ c.parent_url = some r.href ∧
              c.href ≠ r.href ∧ n.api = mkApiInfo c "unknown" ∧
              ∀ q ∈ n.edges, EdgeOK order q := by
            intro n hn
            rcases foldl_build_mem (order.length + 1) order _ [] [r.href] ns
                procF hfold n hn with h' | ⟨c, p, pr, hc, hb⟩
            · simp at h'
            · obtain ⟨hcall, hcp, _, hchne⟩ :=
                mem_childFilter (mem_sortChildren.mp hc)
              obtain ⟨hapi, hedges⟩ :=
                buildTreeNode_sound (order.length + 1) order (c.href :: p) c n
                  pr hcall hb
              exact ⟨c, hcall, hcp, hchne, hapi, hedges⟩
          rcases List.mem_append.mp hpc with hd | hj
          · obtain ⟨n, hn, rfl⟩ := List.mem_map.mp hd
            obtain ⟨c, hcall, hcp, hchne, hapi, _⟩ := main n hn
            constructor
            · exact ⟨r, hrmem, rfl⟩
            · refine ⟨c, hcall, ?_, hcp, hchne⟩
              rw [hapi, mkApiInfo_url]
          · rw [List.mem_flatten] at hj
            obtain ⟨le, hle, hpc'⟩ := hj
            rw [List.mem_map] at hle
            obtain ⟨⟨n, hn⟩, _, rfl⟩ := hle
            obtain ⟨c, _, _, _, _, hedges⟩ := main n hn
            exact hedges pc hpc'

/-! ## Claim C2: what the child filter actually enforces -/

/-- **C2 (amended)**: in the nested tree view, every child attached to a node
is a deduplicated record whose `parentUrl` equals the node's href and whose
href differs from it; the code applies NO depth condition, so a record whose
depth differs from its claimed parent's depth + 1 can still be attached
(see `c2_counterexample`). -/
theorem c2_children_match_parent_url (s : String) (order : List ApiEndpoint)
    (t : TreeNode) (h : apiTree s order = some t) :
    ∀ pc ∈ t.edges, ∃ c ∈ order, c.href = pc.2.url ∧
      c.parent_url = some pc.1.url ∧ c.href ≠ pc.1.url :=
  fun pc hpc => ((apiTree_sound s order t h).2 pc hpc).2

/-- A self-rooted record at the start URL. -/
def rootX : ApiEndpoint :=
  { href := "http://s", rel := some "self", depth := 0,
    parent_url := some "http://s" }

/-- A record claiming the root as parent but with depth 5 (≠ 0 + 1). -/
def deepX : ApiEndpoint :=
  { href := "http://s/deep", depth := 5, parent_url := some "http://s" }

/-- **C2 (counterexample)**: the claim's exact-depth condition does not exist
in the code: a record of depth 5 is attached as a direct child of the
depth-0 root. -/
theorem c2_counterexample :
    apiTree "http://s" [rootX, deepX] =
        some (TreeNode.mk (mkApiInfo rootX "self")
          [TreeNode.mk (mkApiInfo deepX "unknown") []]) ∧
      (mkApiInfo deepX "unknown").depth ≠ (mkApiInfo rootX "self").depth + 1 ∧
      (mkApiInfo rootX "self", mkApiInfo deepX "unknown") ∈
        (TreeNode.mk (mkApiInfo rootX "self")
          [TreeNode.mk (mkApiInfo deepX "unknown") []]).edges :=
  ⟨rfl, by decide, by simp [TreeNode.edges]; rfl⟩

theorem c2_witness :
    ∃ c ∈ [rootX, deepX], c.href = (mkApiInfo deepX "unknown").url ∧
      c.parent_url = some (mkApiInfo rootX "self").url ∧
      c.href ≠ (mkApiInfo rootX "self").url :=
  c2_children_match_parent_url "http://s" [rootX, deepX]
    (TreeNode.mk (mkApiInfo rootX "self")
      [TreeNode.mk (mkApiInfo deepX "unknown") []]) rfl
    (mkApiInfo rootX "self", mkApiInfo deepX "unknown")
    (by simp [TreeNode.edges]; rfl)

/-! ## Claim C4: orphaned records -/

/-- **C4 (amended)**: a deduplicated record whose claimed `parentUrl` matches
no known href is NOT emitted as an additional top-level node — the code
silently omits it: such a record is never attached as a child of any node
(it can appear in the output only if it is itself chosen as the root). -/
theorem c4_orphans_omitted (s : String) (order : List ApiEndpoint)
    (t : TreeNode) (e : ApiEndpoint)
    (hnd : (order.map ApiEndpoint.href).Nodup)
    (h : apiTree s order = some t) (he : e ∈ order)
    (horphan : ∀ p, e.parent_url = some p → p ∉ order.map ApiEndpoint.href) :
    ∀ pc ∈ t.edges, pc.2.url ≠ e.href := by
  intro pc hpc heq
  obtain ⟨⟨cp, hcp, hcpurl⟩, c, hc, hchref, hcparent, _⟩ :=
    (apiTree_sound s order t h).2 pc hpc
  have hce : c = e :=
    List.inj_on_of_nodup_map hnd hc he (by rw [hchref, heq])
  subst hce
  exact horphan pc.1.url hcparent (List.mem_map.mpr ⟨cp, hcp, hcpurl⟩)

/-- A record whose parent url matches no href in the set. -/
def orphY : ApiEndpoint :=
  { href := "http://s/lost", depth := 1, parent_url := some "http://nowhere" }

/-- **C4 (counterexample)**: the orphaned record does not appear in the tree
output at all — the emitted `api_tree` is the single root node, with no
additional top-level nodes. -/
theorem c4_counterexample :
    IsDedupOrder [rootX, orphY] [rootX, orphY] ∧
      apiTree "http://s" [rootX, orphY] =
        some (TreeNode.mk (mkApiInfo rootX "self") []) ∧
      orphY.href ≠ (mkApiInfo rootX "self").url ∧
      (TreeNode.mk (mkApiInfo rootX "self") []).children = [] :=
  ⟨List.Perm.refl _, rfl, by decide, rfl⟩

theorem c4_witness :
    (mkApiInfo deepX "unknown").url ≠ orphY.href :=
  c4_orphans_omitted "http://s" [rootX, deepX, orphY]
    (TreeNode.mk (mkApiInfo rootX "self")
      [TreeNode.mk (mkApiInfo deepX "unknown") []]) orphY
    (by decide) rfl
    (List.mem_cons_of_mem _ (List.mem_cons_of_mem _ (List.mem_cons_self _ _)))
    (by
      intro p hp
      rw [show orphY.parent_url = some "http://nowhere" from rfl] at hp
      cases Option.some.inj hp
      decide)
    (mkApiInfo rootX "self", mkApiInfo deepX "unknown")
    (by simp [TreeNode.edges]; rfl)

/-! ## Claim C3: deduplication tie-break -/

/-- **C3 (amended)**: when two records share an href, the later one replaces
the earlier survivor iff it has strictly more metadata OR it is not rel
`"self"` while the survivor is — the not-self preference is NOT restricted
to equal metadata sizes (it fires even when the replacement has strictly
fewer metadata entries, see `c3_counterexample`).  In particular the spec's
example holds: `{rel:"next", metadata:{a:1,b:2}}` survives over
`{rel:"self", metadata:{}}`. -/
theorem c3_dedup_replacement (a b : ApiEndpoint) (h : b.href = a.href) :
    (uniqueEndpoints [a, b]).map Prod.snd =
      [if b.metadata.length > a.metadata.length ∨
          (b.rel ≠ some "self" ∧ a.rel = some "self") then b else a] := by
  have hcond : ((decide (b.metadata.length > a.metadata.length) ||
      decide (b.rel ≠ some "self") && decide (a.rel = some "self")) = true) ↔
      (b.metadata.length > a.metadata.length ∨
        (b.rel ≠ some "self" ∧ a.rel = some "self")) := by
    simp [Bool.or_eq_true, Bool.and_eq_true, decide_eq_true_eq]
  unfold uniqueEndpoints
  rw [List.foldl_cons, List.foldl_cons, List.foldl_nil]
  rw [show dedupStep [] a = [(a.href, a)] from rfl]
  simp only [dedupStep]
  rw [show epLookup [(a.href, a)] b.href = some a from by
    rw [epLookup, if_pos h.symm]]
  dsimp only
  by_cases hc : b.metadata.length > a.metadata.length ∨
      (b.rel ≠ some "self" ∧ a.rel = some "self")
  · rw [if_pos (hcond.mpr hc), if_pos hc]
    rw [show epInsert [(a.href, a)] b.href b = [(b.href, b)] from by
      rw [epInsert, if_pos h.symm]]
    rfl
  · rw [if_neg (fun hb => hc (hcond.mp hb)), if_neg hc]
    rfl

/-- A rel `"self"` record with two metadata entries. -/
def selfRich : ApiEndpoint :=
  { href := "http://d", rel := some "self", depth := 1,
    metadata := [("a", Json.num 1), ("b", Json.num 2)] }

/-- A rel `"next"` record with no metadata, same href. -/
def nextPoor : ApiEndpoint :=
  { href := "http://d", rel := some "next", depth := 1, metadata := [] }

/-- **C3 (counterexample)**: the survivor is NOT the record with the larger
metadata map — a later not-self record with strictly fewer metadata entries
still replaces a rel-"self" survivor, so the "only on a tie" reading of the
not-self preference is false on the code. -/
theorem c3_counterexample :
    (uniqueEndpoints [selfRich, nextPoor]).map
        (fun kv => (kv.2.rel, kv.2.metadata.length)) = [(some "next", 0)] ∧
      nextPoor.metadata.length < selfRich.metadata.length :=
  ⟨rfl, by decide⟩

/-- The spec's own example, via the amended characterization. -/
def selfPoor : ApiEndpoint :=
  { href := "http://d", rel := some "self", depth := 1, metadata := [] }

def nextRich : ApiEndpoint :=
  { href := "http://d", rel := some "next", depth := 1,
    metadata := [("a", Json.num 1), ("b", Json.num 2)] }

theorem c3_witness :
    (uniqueEndpoints [selfPoor, nextRich]).map Prod.snd =
      [if nextRich.metadata.length > selfPoor.metadata.length ∨
          (nextRich.rel ≠ some "self" ∧ selfPoor.rel = some "self")
        then nextRich else selfPoor] :=
  c3_dedup_replacement selfPoor nextRich rfl

/-! ## Claim C9: determinism of the tree serialization -/

theorem epLookup_none {m : List (String × ApiEndpoint)} {k : String} :
    epLookup m k = none ↔ k ∉ m.map Prod.fst := by
  induction m with
  | nil => simp [epLookup]
  | cons kv rest ih =>
      rw [epLookup]
      by_cases h : kv.1 = k
      · simp [h]
      · simp only [if_neg h, ih, List.map_cons, List.mem_cons]
        constructor
        · intro hn
          intro hc
          rcases hc with hc | hc
          · exact h hc.symm
          · exact hn hc
        · intro hn hc
          exact hn (Or.inr hc)

theorem mem_epInsert {m : List (String × ApiEndpoint)} {k : String}
    {v : ApiEndpoint} {kv : String × ApiEndpoint}
    (h : kv ∈ epInsert m k v) : kv = (k, v) ∨ kv ∈ m := by
  induction m with
  | nil =>
      rw [epInsert] at h
      exact Or.inl (List.mem_singleton.mp h)
  | cons kv' rest ih =>
      rw [epInsert] at h
      split at h
      · rcases List.mem_cons.mp h with h | h
        · exact Or.inl h
        · exact Or.inr (List.mem_cons_of_mem _ h)
      · rcases List.mem_cons.mp h with h | h
        · exact Or.inr (h ▸ List.mem_cons_self _ _)
        · rcases ih h with h | h
          · exact Or.inl h
          · exact Or.inr (List.mem_cons_of_mem _ h)

theorem epInsert_fst_of_mem {m : List (String × ApiEndpoint)} {k : String}
    (v : ApiEndpoint) (h : k ∈ m.map Prod.fst) :
    (epInsert m k v).map Prod.fst = m.map Prod.fst := by
  induction m with
  | nil => simp at h
  | cons kv rest ih =>
      rw [epInsert]
      by_cases hk : kv.1 = k
      · rw [if_pos hk]
        simp [hk]
      · rw [if_neg hk]
        have h' : k ∈ rest.map Prod.fst := by
          rw [List.map_cons] at h
          rcases List.mem_cons.mp h with h' | h'
          · exact absurd h'.symm hk
          · exact h'
        rw [List.map_cons, List.map_cons, ih h']

theorem epInsert_fst_of_not_mem {m : List (String × ApiEndpoint)} {k : String}
    (v : ApiEndpoint) (h : k ∉ m.map Prod.fst) :
    (epInsert m k v).map Prod.fst = m.map Prod.fst ++ [k] := by
  induction m with
  | nil => simp [epInsert]
  | cons kv rest ih =>
      rw [epInsert]
      by_cases hk : kv.1 = k
      · exact absurd (by simp [hk]) h
      · rw [if_neg hk]
        rw [List.map_cons, List.map_cons, ih (fun hc => h (by simp [hc]))]
        rfl

/-- Invariant of the dedup map: each stored record's href is its key, and the
keys are pairwise distinct. -/
theorem uniqueEndpoints_inv (eps : List ApiEndpoint) :
    (∀ kv ∈ uniqueEndpoints eps, kv.2.href = kv.1) ∧
      ((uniqueEndpoints eps).map Prod.fst).Nodup := by
  suffices h : ∀ (l : List ApiEndpoint) (m : List (String × ApiEndpoint)),
      (∀ kv ∈ m, kv.2.href = kv.1) → (m.map Prod.fst).Nodup →
      (∀ kv ∈ l.foldl dedupStep m, kv.2.href = kv.1) ∧
        ((l.foldl dedupStep m).map Prod.fst).Nodup by
    exact h eps [] (by simp) (by simp)
  intro l
  induction l with
  | nil => intro m h1 h2; exact ⟨h1, h2⟩
  | cons e rest ih =>
      intro m h1 h2
      rw [List.foldl_cons]
      apply ih
      · intro kv hkv
        rw [dedupStep] at hkv
        split at hkv
        · split at hkv
          · rcases mem_epInsert hkv with h | h
            · rw [h]
            · exact h1 kv h
          · exact h1 kv hkv
        · rcases mem_epInsert hkv with h | h
          · rw [h]
          · exact h1 kv h
      · rw [dedupStep]
        split
        · next existing hlook =>
            split
            · have hk : e.href ∈ m.map Prod.fst := by
                by_contra hc
                rw [← epLookup_none] at hc
                rw [hc] at hlook
                cases hlook
              rw [epInsert_fst_of_mem _ hk]
              exact h2
            · exact h2
        · next hlook =>
            rw [epInsert_fst_of_not_mem _ (epLookup_none.mp hlook)]
            simp only [List.nodup_append, List.nodup_cons, List.nodup_nil]
            exact ⟨h2, by simp, by simpa using epLookup_none.mp hlook⟩

/-- Any iteration order of the deduplicated records has pairwise-distinct
hrefs. -/
theorem isDedupOrder_nodup {eps order : List ApiEndpoint}
    (h : IsDedupOrder eps order) :
    (order.map ApiEndpoint.href).Nodup := by
  obtain ⟨hkey, hnd⟩ := uniqueEndpoints_inv eps
  have hmap : (uniqueEndpoints eps).map (ApiEndpoint.href ∘ Prod.snd) =
      (uniqueEndpoints eps).map Prod.fst :=
    List.map_congr_left fun kv hkv => hkey kv hkv
  have hperm : (order.map ApiEndpoint.href).Perm
      (((uniqueEndpoints eps).map Prod.snd).map ApiEndpoint.href) :=
    h.map _
  rw [List.map_map, hmap] at hperm
  exact hperm.nodup_iff.mpr hnd

theorem find?_eq_of_unique {α : Type} {p : α → Bool} {l : List α} {e : α}
    (he : e ∈ l) (hpe : p e = true)
    (huniq : ∀ x ∈ l, p x = true → x = e) : l.find? p = some e := by
  induction l with
  | nil => simp at he
  | cons a t ih =>
      by_cases hpa : p a = true
      · rw [List.find?_cons_of_pos _ hpa]
        rw [huniq a (List.mem_cons_self _ _) hpa]
      · rw [List.find?_cons_of_neg _ hpa]
        apply ih
        · rcases List.mem_cons.mp he with h | h
          · exact absurd (h ▸ hpe) hpa
          · exact h
        · exact fun x hx => huniq x (List.mem_cons_of_mem _ hx)

/-- **C9 (amended)**: the serialization is a pure function of the crawl
result TOGETHER WITH the iteration order of the deduplicated records — the
latter is not determined by the `CrawlResult` (it is `HashMap::values()`
order), and `c9_counterexample` shows two orders of the same deduplicated
set yielding different trees.  What IS order-invariant is the root choice
whenever some deduplicated record's href equals `startUrl`: dedup keeps at
most one record per href, so both `find?`-based root criteria pick that
unique record under every iteration order. -/
theorem c9_root_choice_deterministic (s : String)
    (eps o1 o2 : List ApiEndpoint)
    (h1 : IsDedupOrder eps o1) (h2 : IsDedupOrder eps o2)
    (e : ApiEndpoint) (he : e ∈ o1) (hes : e.href = s) :
    findRootEndpoint s o1 = findRootEndpoint s o2 := by
  have hperm : o1.Perm o2 := h1.trans h2.symm
  have he2 : e ∈ o2 := hperm.mem_iff.mp he
  have hnd1 := isDedupOrder_nodup h1
  have hnd2 := isDedupOrder_nodup h2
  have huniq1 : ∀ x ∈ o1, x.href = s → x = e := fun x hx hxs =>
    List.inj_on_of_nodup_map hnd1 hx he (by rw [hxs, hes])
  have huniq2 : ∀ x ∈ o2, x.href = s → x = e := fun x hx hxs =>
    List.inj_on_of_nodup_map hnd2 hx he2 (by rw [hxs, hes])
  by_cases hp1 : (decide (e.href = s) && decide (e.parent_url = some s) &&
      decide (e.rel = some "self")) = true
  · have hf1 : o1.find? (fun x =>
        decide (x.href = s) && decide (x.parent_url = some s) &&
          decide (x.rel = some "self")) = some e :=
      find?_eq_of_unique he hp1 (fun x hx hpx =>
        huniq1 x hx (by
          simp only [Bool.and_eq_true, decide_eq_true_eq] at hpx
          exact hpx.1.1))
    have hf2 : o2.find? (fun x =>
        decide (x.href = s) && decide (x.parent_url = some s) &&
          decide (x.rel = some "self")) = some e :=
      find?_eq_of_unique he2 hp1 (fun x hx hpx =>
        huniq2 x hx (by
          simp only [Bool.and_eq_true, decide_eq_true_eq] at hpx
          exact hpx.1.1))
    rw [findRootEndpoint, findRootEndpoint, hf1, hf2]
  · have hnone : ∀ o : List ApiEndpoint, (∀ x ∈ o, x.href = s → x = e) →
        o.find? (fun x =>
          decide (x.href = s) && decide (x.parent_url = some s) &&
            decide (x.rel = some "self")) = none := by
      intro o huniq
      rw [List.find?_eq_none]
      intro x hx hpx
      have hxs : x.href = s := by
        simp only [Bool.and_eq_true, decide_eq_true_eq] at hpx
        exact hpx.1.1
      exact hp1 ((huniq x hx hxs) ▸ hpx)
    have hf1 : o1.find? (fun x => decide (x.href = s)) = some e :=
      find?_eq_of_unique he (by simp [hes]) (fun x hx hpx =>
        huniq1 x hx (by simpa using hpx))
    have hf2 : o2.find? (fun x => decide (x.href = s)) = some e :=
      find?_eq_of_unique he2 (by simp [hes]) (fun x hx hpx =>
        huniq2 x hx (by simpa using hpx))
    rw [findRootEndpoint, findRootEndpoint, hnone o1 huniq1, hnone o2 huniq2,
      hf1, hf2]

/-- A depth-0 record not at the start URL. -/
def permA : ApiEndpoint := { href := "http://a", depth := 0 }

def permB : ApiEndpoint := { href := "http://b", depth := 0 }

/-- **C9 (counterexample)**: two legitimate iteration orders of the same
deduplicated set (no record at the start URL) produce different trees: the
depth-0 fallback root is whichever record the hash map yields first. -/
theorem c9_counterexample :
    IsDedupOrder [permA, permB] [permA, permB] ∧
      IsDedupOrder [permA, permB] [permB, permA] ∧
      apiTree "http://z" [permA, permB] ≠ apiTree "http://z" [permB, permA] := by
  refine ⟨List.Perm.refl _, List.Perm.swap permA permB [], ?_⟩
  intro h
  have h2 := congrArg
    (fun o : Option TreeNode => (o.map fun t => t.api.url).getD "") h
  have h3 : ("http://a" : String) = "http://b" := h2
  exact absurd h3 (by decide)

theorem c9_witness :
    findRootEndpoint "http://s" [rootX, deepX] =
      findRootEndpoint "http://s" [deepX, rootX] :=
  c9_root_choice_deterministic "http://s" [rootX, deepX] [rootX, deepX]
    [deepX, rootX] (List.Perm.refl _) (List.Perm.swap rootX deepX [])
    rootX (List.mem_cons_self _ _) rfl

/-! ## The traversal engine (`crawler.rs::ApiCrawler::crawl`) -/

/-- The fields of `CrawlerConfig` that the crawl loop reads.  The remaining
fields (`timeout_seconds`, `user_agent`, `headers`, `follow_redirects`,
`max_concurrent_requests`) configure the external `reqwest` client and the
semaphore in `ApiCrawler::new`, before the loop; `delay_ms` only inserts a
sleep and changes no state. -/
structure CrawlerConfig where
  max_depth : Nat
  max_urls : Nat
  allowed_domains : List String
deriving Repr

/-- `types.rs`: `CrawlStats` (timing fields excluded: wall-clock time is
outside the model). -/
structure CrawlStats where
  urls_processed : Nat := 0
  successful_requests : Nat := 0
  failed_requests : Nat := 0
  urls_skipped : Nat := 0
  max_depth_reached : Nat := 0
  errors : List String := []
deriving Repr

/-- Result of `url::Url::parse`, an external collaborator, as an oracle:
`normalized` is `parsed.to_string()`, `domain` is `parsed.domain()`. -/
structure UrlParts where
  normalized : String
  domain : Option String

/-- What the external HTTP client hands the crawler for one URL: a
transport error, or a response with a content-type header and the outcome
of decoding the body as JSON. -/
inductive FetchOutcome where
  | transportErr (msg : String)
  | response (contentType : String) (decoded : Except String Json)

/-- The mutable crawl state: the loop-owned `visited_urls` and `url_queue`
plus the parts of `CrawlResult` the loop mutates.  `fetched` is ghost
instrumentation only: the items for which `process_url` was invoked; it
mirrors no Rust field and influences nothing. -/
structure CrawlState where
  visited_urls : List String
  url_queue : List QueueItem
  endpoints : List ApiEndpoint
  url_mappings : List (String × List ApiEndpoint)
  stats : CrawlStats
  fetched : List QueueItem

/-- `url_mappings.entry(parent).or_insert_with(Vec::new).push(endpoint)`. -/
def mappingsAdd (m : List (String × List ApiEndpoint)) (k : String)
    (e : ApiEndpoint) : List (String × List ApiEndpoint) :=
  match m with
  | [] => [(k, [e])]
  | (k', v) :: rest =>
      if k' = k then (k', v ++ [e]) :: rest else (k', v) :: mappingsAdd rest k e

/-- `CrawlResult::add_endpoint`. -/
def addEndpoint (st : CrawlState) (e : ApiEndpoint) : CrawlState :=
  { st with
    endpoints := st.endpoints ++ [e]
    url_mappings := match e.parent_url with
      | some p => mappingsAdd st.url_mappings p e
      | none => st.url_mappings }

/-- `ApiCrawler::is_domain_allowed`: `Ok(true)` when no restriction, else a
`?`-propagated URL-parse error, else membership of the domain (`Ok(false)`
when the parsed URL has no domain). -/
def is_domain_allowed (parseUrl : String → Option UrlParts)
    (cfg : CrawlerConfig) (url : String) : Except String Bool :=
  if cfg.allowed_domains = [] then .ok true
  else
    match parseUrl url with
    | none => .error "URL parse failed"
    | some parts =>
        match parts.domain with
        | some d => .ok (cfg.allowed_domains.contains d)
        | none => .ok false

/-- `ApiCrawler::process_url` (the semaphore permit cannot fail here and the
sequential `await` makes the call synchronous): fetch, require a JSON
content type (else zero endpoints, not an error), decode, extract. -/
def process_url (fetch : String → FetchOutcome) (jfuel : Nat)
    (item : QueueItem) : Except String (List ApiEndpoint) :=
  match fetch item.url with
  | .transportErr msg => .error msg
  | .response contentType decoded =>
      if !strContains contentType "application/json" &&
          !strContains contentType "application/hal+json" then
        .ok []
      else
        match decoded with
        | .error msg => .error msg
        | .ok json => .ok (extractEndpointsFromJson jfuel json item)

/-- The `for endpoint in endpoints` loop of the success branch: record every
endpoint, and enqueue `(href, depth+1, parent)` when it `should_crawl` and
its href is not already visited. -/
def recordEndpoints (st : CrawlState) (item : QueueItem)
    (eps : List ApiEndpoint) : CrawlState :=
  eps.foldl
    (fun st endpoint =>
      let st1 := addEndpoint st endpoint
      if endpoint.should_crawl then
        if !st1.visited_urls.contains endpoint.href then
          { st1 with url_queue := st1.url_queue ++
              [⟨endpoint.href, item.depth + 1, some item.url⟩] }
        else st1
      else st1)
    st

/-- The `while let Some(item) = self.url_queue.pop_front()` loop.  The fuel
only bounds the number of iterations: the Rust loop has no such exit, and
any finite run is reproduced with enough fuel (with unlimited `max_urls`
and `max_depth` the Rust loop itself need not terminate). -/
def crawlLoop (parseUrl : String → Option UrlParts)
    (fetch : String → FetchOutcome) (jfuel : Nat) (cfg : CrawlerConfig) :
    Nat → CrawlState → Except String CrawlState
  | 0, st => .ok st
  | fuel + 1, st =>
      match st.url_queue with
      | [] => .ok st
      | item :: rest =>
          let st := { st with url_queue := rest }
          if cfg.max_depth > 0 ∧ item.depth ≥ cfg.max_depth then
            crawlLoop parseUrl fetch jfuel cfg fuel
              { st with stats :=
                  { st.stats with urls_skipped := st.stats.urls_skipped + 1 } }
          else if cfg.max_urls > 0 ∧ st.stats.urls_processed ≥ cfg.max_urls then
            .ok st
          else if st.visited_urls.contains item.url then
            crawlLoop parseUrl fetch jfuel cfg fuel
              { st with stats :=
                  { st.stats with urls_skipped := st.stats.urls_skipped + 1 } }
          else
            match is_domain_allowed parseUrl cfg item.url with
            | .error e => .error e
            | .ok false =>
                crawlLoop parseUrl fetch jfuel cfg fuel
                  { st with stats :=
                      { st.stats with urls_skipped := st.stats.urls_skipped + 1 } }
            | .ok true =>
                let st := { st with
                  visited_urls := item.url :: st.visited_urls
                  fetched := st.fetched ++ [item] }
                match process_url fetch jfuel item with
                | .ok endpoints =>
                    let st := { st with stats := { st.stats with
                        successful_requests := st.stats.successful_requests + 1
                        urls_processed := st.stats.urls_processed + 1
                        max_depth_reached :=
                          max st.stats.max_depth_reached item.depth } }
                    crawlLoop parseUrl fetch jfuel cfg fuel
                      (recordEndpoints st item endpoints)
                | .error e =>
                    crawlLoop parseUrl fetch jfuel cfg fuel
                      { st with stats := { st.stats with
                          failed_requests := st.stats.failed_requests + 1
                          errors := st.stats.errors ++
                            ["URL " ++ item.url ++ ": " ++ e] } }
termination_by structural fuel => fuel

/-- `ApiCrawler::crawl`: normalize the seed (fail fast on a parse error),
seed the frontier with `(start_url, 0, None)`, run the loop. -/
def crawl (parseUrl : String → Option UrlParts)
    (fetch : String → FetchOutcome) (jfuel : Nat) (cfg : CrawlerConfig)
    (fuel : Nat) (start_url : String) : Except String CrawlState :=
  match parseUrl start_url with
  | none => .error "URL parse failed"
  | some parts =>
      crawlLoop parseUrl fetch jfuel cfg fuel
        { visited_urls := [], url_queue := [⟨parts.normalized, 0, none⟩],
          endpoints := [], url_mappings := [], stats := {}, fetched := [] }

/-! ## Claim C5: the depth limit -/

theorem foldl_preserves {α β γ : Type} (f : α → β → α) (g : α → γ)
    (h : ∀ a b, g (f a b) = g a) :
    ∀ (l : List β) (a : α), g (l.foldl f a) = g a := by
  intro l
  induction l with
  | nil => intro a; rfl
  | cons b t ih => intro a; rw [List.foldl_cons, ih, h]

theorem recordEndpoints_fetched (st : CrawlState) (item : QueueItem)
    (eps : List ApiEndpoint) :
    (recordEndpoints st item eps).fetched = st.fetched := by
  apply foldl_preserves _ CrawlState.fetched
  intro a b
  dsimp only
  split
  · split
    · rfl
    · rfl
  · rfl

theorem crawlLoop_fetched_depth (parseUrl : String → Option UrlParts)
    (fetch : String → FetchOutcome) (jfuel : Nat) (cfg : CrawlerConfig)
    (hmd : 0 < cfg.max_depth) :
    ∀ (fuel : Nat) (st st' : CrawlState),
      (∀ it ∈ st.fetched, it.depth < cfg.max_depth) →
      crawlLoop parseUrl fetch jfuel cfg fuel st = .ok st' →
      ∀ it ∈ st'.fetched, it.depth < cfg.max_depth := by
  intro fuel
  induction fuel with
  | zero =>
      intro st st' hinv h
      rcases Except.ok.inj h with rfl
      exact hinv
  | succ fuel ih =>
      intro st st' hinv h
      rw [crawlLoop] at h
      split at h
      · rcases Except.ok.inj h with rfl
        exact hinv
      · next item rest hq =>
          dsimp only at h
          split at h
          · refine ih _ _ ?_ h
            exact fun it hit => hinv it hit
          · next hdep =>
              split at h
              · rcases Except.ok.inj h with rfl
                exact hinv
              · split at h
                · refine ih _ _ ?_ h
                  exact fun it hit => hinv it hit
                · split at h
                  · exact absurd h (by simp)
                  · refine ih _ _ ?_ h
                    exact fun it hit => hinv it hit
                  · have hdepth : item.depth < cfg.max_depth := by
                      rcases Nat.lt_or_ge item.depth cfg.max_depth with hlt | hge
                      · exact hlt
                      · exact absurd ⟨hmd, hge⟩ hdep
                    have hinv2 : ∀ it ∈ st.fetched ++ [item],
                        it.depth < cfg.max_depth := by
                      intro it hit
                      rcases List.mem_append.mp hit with hit | hit
                      · exact hinv it hit
                      · rcases List.mem_singleton.mp hit with rfl
                        exact hdepth
                    split at h
                    · refine ih _ _ ?_ h
                      rw [recordEndpoints_fetched]
                      exact hinv2
                    · refine ih _ _ ?_ h
                      exact fun it hit => hinv2 it hit

/-- The C5 scenario: `maxDepth = 1`, a seed whose response yields three
distinct depth-1 endpoints. -/
def c5Cfg : CrawlerConfig :=
  { max_depth := 1, max_urls := 1000, allowed_domains := [] }

def c5Parse : String → Option UrlParts := fun s => some ⟨s, some "e"⟩

def c5Doc : Json := Json.obj [("_links", Json.obj
  [("a", Json.str "http://e/a"), ("b", Json.str "http://e/b"),
   ("c", Json.str "http://e/c")])]

def c5Fetch : String → FetchOutcome := fun url =>
  if url = "http://e" then .response "application/json" (.ok c5Doc)
  else .response "application/json" (.ok (Json.obj []))

/-- **C5**: when `maxDepth = N > 0`, a frontier item whose own depth is
`≥ N` is never fetched (every item handed to `process_url` has depth `< N`),
while endpoints discovered at depth N from a depth-(N-1) fetch are still
recorded: with `maxDepth = 1` and a seed yielding 3 distinct depth-1
endpoints, all 3 appear in the result's endpoints, only the depth-0 seed is
ever fetched (so no depth-2 endpoint appears), and `urlsSkipped` increases
by 3 (one per popped depth-1 item dropped by the depth check). -/
theorem c5_depth_limit :
    (∀ (parseUrl : String → Option UrlParts) (fetch : String → FetchOutcome)
        (jfuel : Nat) (cfg : CrawlerConfig) (fuel : Nat) (s : String)
        (st' : CrawlState), 0 < cfg.max_depth →
        crawl parseUrl fetch jfuel cfg fuel s = .ok st' →
        ∀ it ∈ st'.fetched, it.depth < cfg.max_depth) ∧
      (crawl c5Parse c5Fetch 20 c5Cfg 10 "http://e").map
          (fun st => (st.endpoints.map fun e => (e.href, e.depth),
            st.stats.urls_skipped, st.fetched.map QueueItem.depth)) =
        .ok ([("http://e/a", 1), ("http://e/b", 1), ("http://e/c", 1)],
          3, [0]) := by
  constructor
  · intro parseUrl fetch jfuel cfg fuel s st' hmd h
    rw [crawl] at h
    split at h
    · exact absurd h (by simp)
    · exact crawlLoop_fetched_depth parseUrl fetch jfuel cfg hmd fuel _ st'
        (by intro it hit; simp at hit) h
  · rfl

/-- A run whose final state is small enough to write out: the seed's
response is non-JSON, so the crawl fetches exactly the seed and stops. -/
def c5wCfg : CrawlerConfig :=
  { max_depth := 5, max_urls := 0, allowed_domains := [] }

def c5wFetch : String → FetchOutcome := fun _ =>
  .response "text/html" (.ok Json.null)

def c5wState : CrawlState :=
  { visited_urls := ["http://e"], url_queue := [], endpoints := [],
    url_mappings := [],
    stats := { urls_processed := 1, successful_requests := 1 },
    fetched := [⟨"http://e", 0, none⟩] }

theorem c5_witness :
    (⟨"http://e", 0, none⟩ : QueueItem).depth < c5wCfg.max_depth :=
  c5_depth_limit.1 c5Parse c5wFetch 20 c5wCfg 10 "http://e" c5wState
    (by decide) rfl ⟨"http://e", 0, none⟩ (List.mem_singleton.mpr rfl)

/-! ## Claim C1: which failures abort the crawl -/

theorem is_domain_allowed_empty (parseUrl : String → Option UrlParts)
    {cfg : CrawlerConfig} (h : cfg.allowed_domains = []) (u : String) :
    is_domain_allowed parseUrl cfg u = .ok true := by
  rw [is_domain_allowed, if_pos h]

theorem is_domain_allowed_error {parseUrl : String → Option UrlParts}
    {cfg : CrawlerConfig} {u : String} {e : String}
    (h : is_domain_allowed parseUrl cfg u = .error e) :
    cfg.allowed_domains ≠ [] ∧ e = "URL parse failed" := by
  rw [is_domain_allowed] at h
  split at h
  · exact absurd h (by simp)
  · next hne =>
      split at h
      · exact ⟨hne, (Except.error.inj h).symm⟩
      · split at h
        · exact absurd h (by simp)
        · exact absurd h (by simp)

theorem crawlLoop_error (parseUrl : String → Option UrlParts)
    (fetch : String → FetchOutcome) (jfuel : Nat) (cfg : CrawlerConfig) :
    ∀ (fuel : Nat) (st : CrawlState) (e : String),
      crawlLoop parseUrl fetch jfuel cfg fuel st = .error e →
      cfg.allowed_domains ≠ [] ∧ e = "URL parse failed" := by
  intro fuel
  induction fuel with
  | zero =>
      intro st e h
      rw [crawlLoop] at h
      exact absurd h (by simp)
  | succ fuel ih =>
      intro st e h
      rw [crawlLoop] at h
      split at h
      · exact absurd h (by simp)
      · dsimp only at h
        split at h
        · exact ih _ _ h
        · split at h
          · exact absurd h (by simp)
          · split at h
            · exact ih _ _ h
            · split at h
              · next e' hdom =>
                  obtain ⟨hne, he'⟩ := is_domain_allowed_error hdom
                  rcases Except.error.inj h with rfl
                  exact ⟨hne, he'⟩
              · exact ih _ _ h
              · split at h
                · exact ih _ _ h
                · exact ih _ _ h

/-- The C1 abort scenario: a domain restriction is configured, and the
seed's response links to the relative href `/users`, which the URL parser
rejects. -/
def c1Parse : String → Option UrlParts := fun s =>
  if strStartsWith s "http://" then some ⟨s, some "e"⟩ else none

def c1Cfg : CrawlerConfig :=
  { max_depth := 0, max_urls := 0, allowed_domains := ["e"] }

def c1Doc : Json := Json.obj [("_links", Json.obj [("next", Json.str "/users")])]

def c1Fetch : String → FetchOutcome := fun _ =>
  .response "application/json" (.ok c1Doc)

/-- **C1 (counterexample)**: with a non-empty `allowedDomains`, popping the
extracted relative URL `/users` makes `is_domain_allowed`'s `?` propagate
the `Url::parse` failure and abort the whole crawl — the domain check
itself aborts a crawl whose seed was accepted. -/
theorem c1_counterexample :
    crawl c1Parse c1Fetch 20 c1Cfg 10 "http://e" = .error "URL parse failed" :=
  rfl

/-- The C1 absorption scenario: no domain restriction; the seed links to a
URL with a transport failure, one with a decode failure, and one URL
twice. -/
def c1aCfg : CrawlerConfig :=
  { max_depth := 0, max_urls := 0, allowed_domains := [] }

def c1aDoc : Json := Json.obj [("_links", Json.obj
  [("x", Json.str "http://t"), ("y", Json.str "http://d"),
   ("w", Json.str "http://t")])]

def c1aFetch : String → FetchOutcome := fun url =>
  if url = "http://e" then .response "application/json" (.ok c1aDoc)
  else if url = "http://t" then .transportErr "boom"
  else .response "application/json" (.error "bad json")

/-- **C1 (amended)**: after the seed is accepted, transport and decode
failures are absorbed into `failedRequests`/`errors` and the loop proceeds,
and policy skips are counted in `urlsSkipped`; the crawl loop never aborts
when `allowedDomains` is empty, and when it does abort the error is the
URL-parse failure propagated out of the domain check (which requires a
non-empty `allowedDomains`) — not a transport, decode, or policy
condition. -/
theorem c1_error_propagation :
    (∀ (parseUrl : String → Option UrlParts) (fetch : String → FetchOutcome)
        (jfuel : Nat) (cfg : CrawlerConfig), cfg.allowed_domains = [] →
        ∀ (fuel : Nat) (st : CrawlState),
          ∃ st', crawlLoop parseUrl fetch jfuel cfg fuel st = .ok st') ∧
      (∀ (parseUrl : String → Option UrlParts) (fetch : String → FetchOutcome)
          (jfuel : Nat) (cfg : CrawlerConfig) (fuel : Nat) (st : CrawlState)
          (e : String),
          crawlLoop parseUrl fetch jfuel cfg fuel st = .error e →
          cfg.allowed_domains ≠ [] ∧ e = "URL parse failed") ∧
      (crawl c5Parse c1aFetch 20 c1aCfg 10 "http://e").map
          (fun st => (st.stats.failed_requests, st.stats.urls_skipped,
            st.stats.errors)) =
        .ok (2, 1, ["URL http://t: boom", "URL http://d: bad json"]) := by
  refine ⟨?_, fun p f j cfg fuel st e h => crawlLoop_error p f j cfg fuel st e h, rfl⟩
  intro parseUrl fetch jfuel cfg hempty fuel
  induction fuel with
  | zero => intro st; exact ⟨st, rfl⟩
  | succ fuel ih =>
      intro st
      rw [crawlLoop]
      split
      · exact ⟨st, rfl⟩
      · next item rest hq =>
          dsimp only
          split
          · exact ih _
          · split
            · exact ⟨_, rfl⟩
            · split
              · exact ih _
              · rw [is_domain_allowed_empty parseUrl hempty]
                dsimp only
                split
                · exact ih _
                · exact ih _

/-- The crawl state right after the C1 scenario's seed is accepted. -/
def c1St0 : CrawlState :=
  { visited_urls := [], url_queue := [⟨"http://e", 0, none⟩],
    endpoints := [], url_mappings := [], stats := {}, fetched := [] }

theorem c1_witness :
    c1Cfg.allowed_domains ≠ [] ∧
      ("URL parse failed" : String) = "URL parse failed" :=
  c1_error_propagation.2.1 c1Parse c1Fetch 20 c1Cfg 10 c1St0
    "URL parse failed" rfl

end ApiCrawler
